import Mathlib

/-!
Shallow embedding of the `log_filter_parse` crate (`src/lib.rs`).

Strings are modelled as `List Char`; the positions reported by the Rust
method `char_indices` correspond to positions in the character list.  The
`LevelFilter` and `Level` enums of the `log` crate are reproduced together
with their numeric order and the case-insensitive `FromStr` instance.  The
`HashMap` used by the `Map` representation is modelled as an association
list built by insert-or-overwrite, looked up by its (unique) key.
-/

namespace LogFilterParse

/-- The `log::LevelFilter` enum: Off, Error, Warn, Info, Debug, Trace. -/
inductive LevelFilter where
  | Off
  | Error
  | Warn
  | Info
  | Debug
  | Trace
deriving DecidableEq, Repr, Fintype, Inhabited

/-- The numeric order on `log::LevelFilter` (`as usize`). -/
def LevelFilter.toNat : LevelFilter → Nat
  | .Off => 0
  | .Error => 1
  | .Warn => 2
  | .Info => 3
  | .Debug => 4
  | .Trace => 5

/-- The `log::Level` enum: the severity of a record; has no `Off`. -/
inductive Level where
  | Error
  | Warn
  | Info
  | Debug
  | Trace
deriving DecidableEq, Repr, Inhabited

/-- The numeric order on `log::Level` (`as usize`, starting at 1). -/
def Level.toNat : Level → Nat
  | .Error => 1
  | .Warn => 2
  | .Info => 3
  | .Debug => 4
  | .Trace => 5

/-- Model of the Rust method `str::split`: splitting the empty string
yields one empty piece, and every separator starts a new piece. -/
def splitSep (sep : Char) : List Char → List (List Char)
  | [] => [[]]
  | c :: rest =>
    if c = sep then [] :: splitSep sep rest
    else
      match splitSep sep rest with
      | [] => [[c]]
      | g :: gs => (c :: g) :: gs

/-- Characterwise model of `str::to_ascii_uppercase` (`Char.toUpper` is the
ASCII-only upper-casing, exactly `u8::to_ascii_uppercase` on ASCII). -/
def toUpperStr (s : List Char) : List Char := s.map Char.toUpper

/-- The `FromStr` instance of `log::LevelFilter`: case-insensitive
comparison against the six level names. -/
def parseLevelName (s : List Char) : Option LevelFilter :=
  if toUpperStr s = "OFF".toList then some .Off
  else if toUpperStr s = "ERROR".toList then some .Error
  else if toUpperStr s = "WARN".toList then some .Warn
  else if toUpperStr s = "INFO".toList then some .Info
  else if toUpperStr s = "DEBUG".toList then some .Debug
  else if toUpperStr s = "TRACE".toList then some .Trace
  else none

/-- A stored rule: module path and level threshold. -/
abbrev Rule := List Char × LevelFilter

/-- The `parse` function from `lib.rs`: split the token on `=`; the first piece is the
module, the second piece (if any) is upper-cased and parsed as a level
name; any further pieces are ignored by the two `iter.next()` calls. -/
def parse (input : List Char) : Option Rule :=
  match splitSep '=' input with
  | [] => none
  | [_] => none
  | l :: r :: _ => (parseLevelName (toUpperStr r)).map (fun lv => (l, lv))

/-- Linear scan for the first rule whose module equals the query
(`iter().find_map(..)` on the `List` and `HashMap::get` on the
association list with unique keys). -/
def lookupLevel : List Rule → List Char → Option LevelFilter
  | [], _ => none
  | (m, level) :: rest, module' =>
    if m = module' then some level else lookupLevel rest module'

/-- Model of `HashMap::insert`: overwrite the value when the key is
present, otherwise add the entry. -/
def hashInsert : List Rule → List Char → LevelFilter → List Rule
  | [], k, v => [(k, v)]
  | (k', v') :: rest, k, v =>
    if k' = k then (k', v) :: rest else (k', v') :: hashInsert rest k v

/-- Model of collecting the parsed rules into a `HashMap`: fold the rules
into the keyed collection; later entries for a key overwrite earlier ones. -/
def hashCollect (rs : List Rule) : List Rule :=
  rs.foldl (fun m r => hashInsert m r.1 r.2) []

/-- Model of `Iterator::max` over level filters (the maximum value, `None`
on an empty iterator). -/
def maxLevel : List LevelFilter → Option LevelFilter
  | [] => none
  | x :: rest =>
    match maxLevel rest with
    | none => some x
    | some m => some (if x.toNat ≤ m.toNat then m else x)

/-- The `FiltersKind` enum from `lib.rs`. -/
inductive FiltersKind where
  | Default
  | Blanket
  | List (levels : List Rule)
  | Map (levels : List Rule)
deriving DecidableEq, Repr

/-- The `Filters` struct from `lib.rs`: the kind tag and the optional minimum. -/
structure Filters where
  kind : FiltersKind
  minimum : Option LevelFilter
deriving DecidableEq, Repr

/-- The function `Filters::from_str`. -/
def Filters.from_str (input : List Char) : Filters :=
  let mapping := (splitSep ',' input).filterMap parse
  let minimum :=
    maxLevel ((((splitSep ',' input).filter
        (fun s => !(s.contains '='))).filterMap parseLevelName).filter
      (fun l => decide (l ≠ LevelFilter.Off)))
  let kind :=
    if mapping.length = 0 then
      if minimum = none then FiltersKind.Default else FiltersKind.Blanket
    else if mapping.length < 15 then FiltersKind.List mapping
    else FiltersKind.Map (hashCollect mapping)
  { kind := kind, minimum := minimum }

/-- The function `Filters::find_exact`. -/
def Filters.find_exact (f : Filters) (module' : List Char) : Option LevelFilter :=
  match f.kind with
  | FiltersKind.Default => none
  | FiltersKind.Blanket => f.minimum
  | FiltersKind.List levels => lookupLevel levels module'
  | FiltersKind.Map levels => lookupLevel levels module'

/-- The `for (i, ch) in module.char_indices().rev()` loop of
`Filters::find_module`, with the `last` flag made explicit. -/
def scanLoop (f : Filters) (module' : List Char) :
    List (Nat × Char) → Bool → Option LevelFilter
  | [], _ => none
  | (i, ch) :: rest, last =>
    if last then
      if ch = ':' then
        match f.find_exact (module'.take i) with
        | some level => some level
        | none => scanLoop f module' rest false
      else scanLoop f module' rest false
    else if ch = ':' then scanLoop f module' rest true
    else scanLoop f module' rest false

/-- The function `Filters::find_module`. -/
def Filters.find_module (f : Filters) (module' : List Char) : Option LevelFilter :=
  match f.kind with
  | FiltersKind.Default => none
  | FiltersKind.Blanket => f.minimum
  | _ =>
    match f.find_exact module' with
    | some level => some level
    | none =>
      match scanLoop f module' module'.enum.reverse false with
      | some level => some level
      | none => f.minimum

/-- The function `Filters::is_enabled`, with `log::Metadata` reduced to the two fields it
contributes: the target module and the requested level. -/
def Filters.is_enabled (f : Filters) (target : List Char) (level : Level) : Bool :=
  match f.find_module target with
  | some l => decide (level.toNat ≤ l.toNat)
  | none => false

/-! Helper definitions used to state the claims -/

/-- First hit of `find_exact` along a list of candidate module paths. -/
def firstMatch (f : Filters) : List (List Char) → Option LevelFilter
  | [] => none
  | p :: ps =>
    match f.find_exact p with
    | some level => some level
    | none => firstMatch f ps

/-- The truncation indices tried by the `find_module` scan, in the order the
loop tries them (same branch structure as `scanLoop`). -/
def collectIdx : List (Nat × Char) → Bool → List Nat
  | [], _ => []
  | (i, ch) :: rest, last =>
    if last then
      if ch = ':' then i :: collectIdx rest false else collectIdx rest false
    else if ch = ':' then collectIdx rest true
    else collectIdx rest false

/-- The candidate truncated paths tried by `find_module` after the exact
match, in order. -/
def fallbackChain (m : List Char) : List (List Char) :=
  (collectIdx m.enum.reverse false).map (fun i => m.take i)

/-! Lemmas about `splitSep` -/

theorem splitSep_of_not_mem (sep : Char) (s : List Char) (h : sep ∉ s) :
    splitSep sep s = [s] := by
  induction s with
  | nil => rfl
  | cons c rest ih =>
    have hc : ¬(c = sep) := fun e => h (e ▸ List.mem_cons_self c rest)
    have hr : sep ∉ rest := fun hm => h (List.mem_cons_of_mem _ hm)
    simp [splitSep, hc, ih hr]

theorem splitSep_append (sep : Char) (l r : List Char) (h : sep ∉ l) :
    splitSep sep (l ++ sep :: r) = l :: splitSep sep r := by
  induction l with
  | nil => simp [splitSep]
  | cons c rest ih =>
    have hc : ¬(c = sep) := fun e => h (e ▸ List.mem_cons_self c rest)
    have hr : sep ∉ rest := fun hm => h (List.mem_cons_of_mem _ hm)
    simp [splitSep, hc, ih hr]

/-! Lemmas about `parseLevelName` -/

/-- The canonical (upper-case) name of each level filter. -/
def levelNameOf : LevelFilter → List Char
  | .Off => "OFF".toList
  | .Error => "ERROR".toList
  | .Warn => "WARN".toList
  | .Info => "INFO".toList
  | .Debug => "DEBUG".toList
  | .Trace => "TRACE".toList

theorem parseLevelName_eq (s : List Char) (lv : LevelFilter)
    (h : parseLevelName s = some lv) : toUpperStr s = levelNameOf lv := by
  unfold parseLevelName at h
  split_ifs at h with h1 h2 h3 h4 h5 h6 <;>
    (injection h with h'; subst h'; assumption)

theorem not_mem_of_parseLevelName (s : List Char) (lv : LevelFilter) (c : Char)
    (h : parseLevelName s = some lv) (hc : Char.toUpper c = c)
    (hn : c ∉ levelNameOf lv) : c ∉ s := by
  intro hm
  have hmem : Char.toUpper c ∈ toUpperStr s := List.mem_map_of_mem _ hm
  rw [hc, parseLevelName_eq s lv h] at hmem
  exact hn hmem

theorem parseLevelName_no_special (s : List Char) (lv : LevelFilter)
    (h : parseLevelName s = some lv) : '=' ∉ s ∧ ',' ∉ s := by
  constructor
  · exact not_mem_of_parseLevelName s lv '=' h (by decide) (by cases lv <;> decide)
  · exact not_mem_of_parseLevelName s lv ',' h (by decide) (by cases lv <;> decide)

/-! Lemmas about `maxLevel` -/

theorem LevelFilter.toNat_inj :
    ∀ a b : LevelFilter, a.toNat = b.toNat → a = b := by decide

theorem maxLevel_eq_none (xs : List LevelFilter) : maxLevel xs = none ↔ xs = [] := by
  cases xs with
  | nil => simp [maxLevel]
  | cons x rest => cases h : maxLevel rest <;> simp [maxLevel, h]

theorem maxLevel_mem (xs : List LevelFilter) :
    ∀ m, maxLevel xs = some m → m ∈ xs ∧ ∀ x ∈ xs, x.toNat ≤ m.toNat := by
  induction xs with
  | nil => intro m h; simp [maxLevel] at h
  | cons x rest ih =>
    intro m h
    cases hr : maxLevel rest with
    | none =>
      simp [maxLevel, hr] at h
      have hrest : rest = [] := (maxLevel_eq_none rest).mp hr
      subst hrest; subst h; simp
    | some m' =>
      simp [maxLevel, hr] at h
      obtain ⟨hmem, hub⟩ := ih m' hr
      by_cases hx : x.toNat ≤ m'.toNat
      · rw [if_pos hx] at h
        subst h
        refine ⟨List.mem_cons_of_mem _ hmem, ?_⟩
        intro y hy
        rcases List.mem_cons.mp hy with rfl | hy
        · exact hx
        · exact hub y hy
      · rw [if_neg hx] at h
        subst h
        refine ⟨List.mem_cons_self _ _, ?_⟩
        intro y hy
        rcases List.mem_cons.mp hy with rfl | hy
        · exact Nat.le_refl _
        · exact Nat.le_trans (hub y hy) (Nat.le_of_not_le hx)

theorem maxLevel_eq_of (xs : List LevelFilter) (m : LevelFilter)
    (hmem : m ∈ xs) (hub : ∀ x ∈ xs, x.toNat ≤ m.toNat) : maxLevel xs = some m := by
  cases hx : maxLevel xs with
  | none =>
    rw [maxLevel_eq_none] at hx
    subst hx
    simp at hmem
  | some m' =>
    obtain ⟨hm', hub'⟩ := maxLevel_mem xs m' hx
    have : m' = m := LevelFilter.toNat_inj m' m (Nat.le_antisymm (hub m' hm') (hub' m hmem))
    rw [this]

/-! Unfolding of `from_str` (zeta-expanded, definitional) -/

theorem from_str_eq (input : List Char) :
    Filters.from_str input =
      { kind :=
          if ((splitSep ',' input).filterMap parse).length = 0 then
            if maxLevel ((((splitSep ',' input).filter
                  (fun s => !(s.contains '='))).filterMap parseLevelName).filter
                (fun l => decide (l ≠ LevelFilter.Off))) = none then
              FiltersKind.Default
            else FiltersKind.Blanket
          else if ((splitSep ',' input).filterMap parse).length < 15 then
            FiltersKind.List ((splitSep ',' input).filterMap parse)
          else FiltersKind.Map (hashCollect ((splitSep ',' input).filterMap parse)),
        minimum :=
          maxLevel ((((splitSep ',' input).filter
              (fun s => !(s.contains '='))).filterMap parseLevelName).filter
            (fun l => decide (l ≠ LevelFilter.Off))) } := rfl

/-! Lemmas about `lookupLevel`, `hashInsert`, `hashCollect` -/

theorem lookupLevel_eq_none (rs : List Rule) (p : List Char)
    (h : ∀ q ∈ rs, q.1 ≠ p) : lookupLevel rs p = none := by
  induction rs with
  | nil => rfl
  | cons q rest ih =>
    obtain ⟨m, lv⟩ := q
    have hm : ¬(m = p) := h (m, lv) (List.mem_cons_self _ _)
    simp [lookupLevel, hm, ih (fun q hq => h q (List.mem_cons_of_mem _ hq))]

theorem lookupLevel_append (xs ys : List Rule) (p : List Char) :
    lookupLevel (xs ++ ys) p =
      match lookupLevel xs p with
      | some v => some v
      | none => lookupLevel ys p := by
  induction xs with
  | nil => simp [lookupLevel]
  | cons q rest ih =>
    obtain ⟨m, lv⟩ := q
    by_cases hm : m = p <;> simp [lookupLevel, hm, ih]

theorem lookupLevel_hashInsert (ms : List Rule) (k p : List Char) (v : LevelFilter) :
    lookupLevel (hashInsert ms k v) p = if k = p then some v else lookupLevel ms p := by
  induction ms with
  | nil => simp [hashInsert, lookupLevel]
  | cons q rest ih =>
    obtain ⟨k', v'⟩ := q
    by_cases hk : k' = k
    · subst hk
      by_cases hp : k' = p <;> simp [hashInsert, lookupLevel, hp]
    · by_cases hp : k' = p
      · subst hp
        have hne : ¬(k = k') := fun e => hk e.symm
        simp [hashInsert, hk, lookupLevel, hne]
      · simp [hashInsert, hk, lookupLevel, hp, ih]

theorem foldl_hashInsert_lookup (p : List Char) :
    ∀ (rs : List Rule) (acc : List Rule),
      lookupLevel (rs.foldl (fun m r => hashInsert m r.1 r.2) acc) p =
        rs.foldl (fun a q => if q.1 = p then some q.2 else a) (lookupLevel acc p) := by
  intro rs
  induction rs with
  | nil => intro acc; rfl
  | cons q rest ih =>
    intro acc
    simp only [List.foldl_cons]
    rw [ih, lookupLevel_hashInsert]

theorem lookupLevel_hashCollect (rs : List Rule) (p : List Char) :
    lookupLevel (hashCollect rs) p =
      rs.foldl (fun a q => if q.1 = p then some q.2 else a) none := by
  unfold hashCollect
  rw [foldl_hashInsert_lookup]
  rfl

theorem foldl_lastVal_clean (p : List Char) (xs : List Rule)
    (h : ∀ q ∈ xs, q.1 ≠ p) (a : Option LevelFilter) :
    xs.foldl (fun acc q => if q.1 = p then some q.2 else acc) a = a := by
  induction xs generalizing a with
  | nil => rfl
  | cons q rest ih =>
    simp only [List.foldl_cons, h q (List.mem_cons_self _ _), if_neg]
    exact ih (fun q hq => h q (List.mem_cons_of_mem _ hq)) a

theorem hashInsert_of_not_mem (ms : List Rule) (k : List Char) (v : LevelFilter)
    (h : k ∉ ms.map Prod.fst) : hashInsert ms k v = ms ++ [(k, v)] := by
  induction ms with
  | nil => rfl
  | cons q rest ih =>
    obtain ⟨k', v'⟩ := q
    have hk : ¬(k' = k) := fun e => h (by simp [e])
    simp [hashInsert, hk]
    exact ih (fun hm => h (by simp [hm]))

theorem foldl_hashInsert_of_nodup :
    ∀ (rs acc : List Rule), (rs.map Prod.fst).Nodup →
      (∀ k ∈ rs.map Prod.fst, k ∉ acc.map Prod.fst) →
      rs.foldl (fun m r => hashInsert m r.1 r.2) acc = acc ++ rs := by
  intro rs
  induction rs with
  | nil => intro acc _ _; simp
  | cons q rest ih =>
    intro acc hnd hdis
    obtain ⟨k, v⟩ := q
    simp only [List.foldl_cons]
    rw [hashInsert_of_not_mem acc k v (hdis k (by simp))]
    rw [ih (acc ++ [(k, v)]) (by simpa using hnd.of_cons) ?_]
    · simp
    · intro k' hk'
      have hnd' : (k :: rest.map Prod.fst).Nodup := by simpa using hnd
      have hkk : k ∉ rest.map Prod.fst := (List.nodup_cons.mp hnd').1
      have hk'rest : k' ∈ rest.map Prod.fst := by simpa using hk'
      simp only [List.map_append, List.mem_append]
      rintro (hacc | hkv)
      · exact hdis k' (by simp [hk'rest]) hacc
      · simp at hkv
        subst hkv
        exact hkk hk'rest

theorem hashCollect_of_nodup (rs : List Rule) (h : (rs.map Prod.fst).Nodup) :
    hashCollect rs = rs := by
  unfold hashCollect
  rw [foldl_hashInsert_of_nodup rs [] h (by simp)]
  simp

/-! Lemmas about the prefix-fallback scan -/

theorem scanLoop_eq (f : Filters) (m : List Char) :
    ∀ (l : List (Nat × Char)) (b : Bool),
      scanLoop f m l b = firstMatch f ((collectIdx l b).map (fun i => m.take i)) := by
  intro l
  induction l with
  | nil => intro b; rfl
  | cons pr rest ih =>
    intro b
    obtain ⟨i, ch⟩ := pr
    by_cases hb : b
    · by_cases hc : ch = ':'
      · simp only [scanLoop, collectIdx, hb, hc, if_true, List.map_cons]
        cases hx : f.find_exact (m.take i) <;> simp [firstMatch, hx, ih]
      · simp [scanLoop, collectIdx, hb, hc, ih]
    · by_cases hc : ch = ':' <;> simp [scanLoop, collectIdx, hb, hc, ih]

theorem collectIdx_sublist :
    ∀ (l : List (Nat × Char)) (b : Bool), (collectIdx l b).Sublist (l.map Prod.fst) := by
  intro l
  induction l with
  | nil => intro b; simp [collectIdx]
  | cons pr rest ih =>
    intro b
    obtain ⟨i, ch⟩ := pr
    by_cases hb : b
    · by_cases hc : ch = ':'
      · simp only [collectIdx, hb, hc, if_true, List.map_cons]
        exact (ih false).cons₂ i
      · simp only [collectIdx, hb, hc, if_true, if_false, List.map_cons]
        exact (ih false).cons i
    · by_cases hc : ch = ':' <;>
        simp only [collectIdx, hb, hc, if_true, if_false, List.map_cons] <;>
        first
          | exact (ih true).cons i
          | exact (ih false).cons i

theorem collectIdx_lt_length (m : List Char) :
    ∀ i ∈ collectIdx m.enum.reverse false, i < m.length := by
  intro i hi
  have hmem : i ∈ (m.enum.reverse).map Prod.fst :=
    (collectIdx_sublist m.enum.reverse false).subset hi
  have : (m.enum.reverse).map Prod.fst = (List.range m.length).reverse := by
    simp
  rw [this] at hmem
  simpa using hmem

theorem fallbackChain_pairwise (m : List Char) :
    (fallbackChain m).Pairwise (fun a b => b.length < a.length) := by
  have hsub := collectIdx_sublist m.enum.reverse false
  have hmapfst : (m.enum.reverse).map Prod.fst = (List.range m.length).reverse := by
    simp
  have hpw : ((m.enum.reverse).map Prod.fst).Pairwise (fun a b => b < a) := by
    rw [hmapfst]
    exact List.pairwise_reverse.mpr (List.pairwise_lt_range m.length)
  have hidx : (collectIdx m.enum.reverse false).Pairwise (fun a b => b < a) :=
    hpw.sublist hsub
  unfold fallbackChain
  rw [List.pairwise_map]
  refine hidx.imp_of_mem ?_
  intro a b ha hb hr
  rw [List.length_take, List.length_take,
    Nat.min_eq_left (Nat.le_of_lt (collectIdx_lt_length m a ha)),
    Nat.min_eq_left (Nat.le_of_lt (collectIdx_lt_length m b hb))]
  exact hr

/-! Definitional unfoldings of `find_module` at a known kind -/

theorem find_module_List (rs : List Rule) (mn : Option LevelFilter) (m : List Char) :
    (Filters.mk (FiltersKind.List rs) mn).find_module m =
      (match (Filters.mk (FiltersKind.List rs) mn).find_exact m with
       | some level => some level
       | none =>
         match scanLoop (Filters.mk (FiltersKind.List rs) mn) m m.enum.reverse false with
         | some level => some level
         | none => mn) := rfl

theorem find_module_Map (rs : List Rule) (mn : Option LevelFilter) (m : List Char) :
    (Filters.mk (FiltersKind.Map rs) mn).find_module m =
      (match (Filters.mk (FiltersKind.Map rs) mn).find_exact m with
       | some level => some level
       | none =>
         match scanLoop (Filters.mk (FiltersKind.Map rs) mn) m m.enum.reverse false with
         | some level => some level
         | none => mn) := rfl

theorem scanLoop_congr (f₁ f₂ : Filters) (m : List Char)
    (h : ∀ x, f₁.find_exact x = f₂.find_exact x) :
    ∀ (l : List (Nat × Char)) (b : Bool), scanLoop f₁ m l b = scanLoop f₂ m l b := by
  intro l
  induction l with
  | nil => intro b; rfl
  | cons pr rest ih =>
    intro b
    obtain ⟨i, ch⟩ := pr
    by_cases hb : b
    · by_cases hc : ch = ':'
      · simp only [scanLoop, hb, hc, if_true]
        rw [h (m.take i)]
        cases f₂.find_exact (m.take i) <;> simp [ih]
      · simp [scanLoop, hb, hc, ih]
    · by_cases hc : ch = ':' <;> simp [scanLoop, hb, hc, ih]

example :
    (Filters.from_str ("debug,foo::bar=off,foo::baz=trace,foo=info,baz=off,quux=error".toList)).find_module
      "foo::bar".toList = some LevelFilter.Off := by decide

example :
    (Filters.from_str ("debug,foo::bar=off,foo::baz=trace,foo=info,baz=off,quux=error".toList)).find_module
      "this::is::unknown".toList = some LevelFilter.Debug := by decide

example : parse ("foo=debug=trace".toList) = some ("foo".toList, LevelFilter.Debug) := by decide

example : parse ("=debug".toList) = some ([], LevelFilter.Debug) := by decide

example : (Filters.from_str ("debug,off".toList)).minimum = some LevelFilter.Debug := by decide

/-! The claims -/

/-- C1: For a `FilterSet` of kind `List` or `Map`, `find_module` first tries an
exact match, then exact matches of the truncations at `::` boundaries scanned
from the end (in order, strictly decreasing in length; for `a::b::c` the
fallback order is `a::b` then `a`), and finally falls back to the global
minimum. -/
theorem find_module_hierarchical_fallback (f : Filters) (m : List Char)
    (h : (∃ rs, f.kind = FiltersKind.List rs) ∨ (∃ rs, f.kind = FiltersKind.Map rs)) :
    (f.find_module m =
      match f.find_exact m with
      | some level => some level
      | none =>
        match firstMatch f (fallbackChain m) with
        | some level => some level
        | none => f.minimum)
    ∧ (fallbackChain m).Pairwise (fun a b => b.length < a.length)
    ∧ fallbackChain ("a::b::c".toList) = ["a::b".toList, "a".toList] := by
  refine ⟨?_, fallbackChain_pairwise m, by decide⟩
  obtain ⟨k, mn⟩ := f
  rcases h with ⟨rs, hk⟩ | ⟨rs, hk⟩ <;>
    simp only at hk <;>
    subst hk
  · rw [find_module_List, scanLoop_eq]
    rfl
  · rw [find_module_Map, scanLoop_eq]
    rfl

theorem find_module_hierarchical_fallback_witness :
    ((Filters.mk (FiltersKind.List [("a".toList, LevelFilter.Info)]) none).find_module
        "a::b::c".toList =
      match (Filters.mk (FiltersKind.List [("a".toList, LevelFilter.Info)]) none).find_exact
          "a::b::c".toList with
      | some level => some level
      | none =>
        match firstMatch (Filters.mk (FiltersKind.List [("a".toList, LevelFilter.Info)]) none)
            (fallbackChain ("a::b::c".toList)) with
        | some level => some level
        | none => (Filters.mk (FiltersKind.List [("a".toList, LevelFilter.Info)]) none).minimum)
    ∧ (fallbackChain ("a::b::c".toList)).Pairwise (fun a b => b.length < a.length)
    ∧ fallbackChain ("a::b::c".toList) = ["a::b".toList, "a".toList] :=
  find_module_hierarchical_fallback _ _ (Or.inl ⟨_, rfl⟩)

/-- C2: the query `is_enabled` is true iff `find_module` resolves a threshold and the
requested level is no more verbose than it in the numeric order
Off < Error < Warn < Info < Debug < Trace; a resolved `Off` admits nothing,
a resolved `Trace` admits everything, and an absent threshold yields false. -/
theorem is_enabled_iff_threshold (f : Filters) (m : List Char) (lvl : Level) :
    (f.is_enabled m lvl = true ↔
      ∃ t, f.find_module m = some t ∧ lvl.toNat ≤ t.toNat)
    ∧ (f.find_module m = some LevelFilter.Off → f.is_enabled m lvl = false)
    ∧ (f.find_module m = some LevelFilter.Trace → f.is_enabled m lvl = true)
    ∧ (f.find_module m = none → f.is_enabled m lvl = false)
    ∧ List.Pairwise (fun a b => a.toNat < b.toNat)
        [LevelFilter.Off, LevelFilter.Error, LevelFilter.Warn, LevelFilter.Info,
          LevelFilter.Debug, LevelFilter.Trace] := by
  refine ⟨?_, ?_, ?_, ?_, by decide⟩
  · cases hx : f.find_module m <;> simp [Filters.is_enabled, hx]
  · intro hx
    cases lvl <;> simp [Filters.is_enabled, hx, Level.toNat, LevelFilter.toNat]
  · intro hx
    cases lvl <;> simp [Filters.is_enabled, hx, Level.toNat, LevelFilter.toNat]
  · intro hx
    simp [Filters.is_enabled, hx]

theorem is_enabled_iff_threshold_witness :
    (Filters.mk (FiltersKind.List [("m".toList, LevelFilter.Off)]) none).is_enabled
        "m".toList Level.Error = false
    ∧ (Filters.mk (FiltersKind.List [("m".toList, LevelFilter.Trace)]) none).is_enabled
        "m".toList Level.Error = true
    ∧ (Filters.mk FiltersKind.Default none).is_enabled ("m".toList) Level.Error = false :=
  ⟨(is_enabled_iff_threshold _ _ _).2.1 (by decide),
   (is_enabled_iff_threshold _ _ _).2.2.1 (by decide),
   (is_enabled_iff_threshold _ _ _).2.2.2.1 (by decide)⟩

/-- C10: the queries `find_module` and `is_enabled` are total on every module string, and
every truncation index tried during the prefix fallback is an index produced
by `char_indices` (an in-range position of the character list). -/
theorem find_module_total_and_boundary (f : Filters) (m : List Char) (lvl : Level) :
    (∃ r, f.find_module m = r) ∧ (∃ b, f.is_enabled m lvl = b) ∧
    ∀ i ∈ collectIdx m.enum.reverse false, i < m.length ∧ ∃ ch, (i, ch) ∈ m.enum := by
  refine ⟨⟨_, rfl⟩, ⟨_, rfl⟩, ?_⟩
  intro i hi
  refine ⟨collectIdx_lt_length m i hi, ?_⟩
  have hmem : i ∈ (m.enum.reverse).map Prod.fst :=
    (collectIdx_sublist m.enum.reverse false).subset hi
  rw [List.map_reverse, List.mem_reverse] at hmem
  obtain ⟨⟨i', ch⟩, hpr, he⟩ := List.mem_map.mp hmem
  simp only at he
  subst he
  exact ⟨ch, hpr⟩

theorem find_module_total_and_boundary_witness :
    4 < ("a::b::c".toList).length ∧ ∃ ch, (4, ch) ∈ ("a::b::c".toList).enum :=
  (find_module_total_and_boundary (Filters.mk FiltersKind.Default none)
    "a::b::c".toList Level.Error).2.2 4 (by decide)

/-- C3 (counterexample): contrary to the claim that every `=value` token is
skipped, the token `=debug` is parsed into a rule (with empty module path),
and `from_str` applied to that token holds the rule in a `List`. -/
theorem parse_eq_value_counterexample :
    parse ("=debug".toList) = some ([], LevelFilter.Debug)
    ∧ (Filters.from_str ("=debug".toList)).kind =
        FiltersKind.List [([], LevelFilter.Debug)] :=
  ⟨by decide, by decide⟩

/-- C3 (amended): a token that is exactly `=` or of shape `key=` (empty right
side) is skipped; an `=value` token is skipped only when `value` is not a
severity-level name — when it is one, the token yields a rule with empty
module path. -/
theorem parse_missing_side_skipped (left v : List Char) (lv : LevelFilter)
    (h1 : '=' ∉ left) (h2 : parseLevelName v = some lv) :
    parse (left ++ ['=']) = none ∧ parse ('=' :: v) = some ([], lv) := by
  constructor
  · unfold parse
    rw [show (['='] : List Char) = '=' :: [] from rfl, splitSep_append _ _ _ h1]
    show Option.map (fun lv => (left, lv)) (parseLevelName (toUpperStr [])) = none
    rw [show parseLevelName (toUpperStr []) = none from by decide]
    rfl
  · have hne : '=' ∉ v := (parseLevelName_no_special v lv h2).1
    unfold parse
    rw [show ('=' :: v : List Char) = [] ++ '=' :: v from rfl,
      splitSep_append _ _ _ (by simp), splitSep_of_not_mem _ _ hne]
    have hup := parseLevelName_eq v lv h2
    show (parseLevelName (toUpperStr v)).map (fun lv => ([], lv)) = some ([], lv)
    rw [hup]
    cases lv <;> decide

theorem parse_missing_side_skipped_witness :
    parse ("key=".toList) = none ∧ parse ("=debug".toList) = some ([], LevelFilter.Debug) :=
  ⟨(parse_missing_side_skipped ("key".toList) ("debug".toList) LevelFilter.Debug
      (by decide) (by decide)).1,
   (parse_missing_side_skipped ("key".toList) ("debug".toList) LevelFilter.Debug
      (by decide) (by decide)).2⟩

/-- C4 (counterexample): contrary to the claim that everything right of the
first `=` is the level text (so that `foo=debug=trace` would yield no rule),
the code takes only the segment between the first and second `=`, and
`foo=debug=trace` yields the rule `(foo, Debug)`. -/
theorem parse_second_equals_counterexample :
    parse ("foo=debug=trace".toList) = some ("foo".toList, LevelFilter.Debug) := by decide

/-- C4 (amended): a token containing `=` is split on `=`; the module is the
segment before the first `=`, the level text is the segment between the first
and second `=` (to the end when there is no second), upper-cased and parsed as
a severity name; anything after a second `=` is ignored. A rule results iff
that segment parses. -/
theorem parse_splits_on_equals (l r rest : List Char)
    (h1 : '=' ∉ l) (h2 : '=' ∉ r) :
    parse (l ++ '=' :: r) = (parseLevelName (toUpperStr r)).map (fun lv => (l, lv))
    ∧ parse (l ++ '=' :: r ++ '=' :: rest) =
        (parseLevelName (toUpperStr r)).map (fun lv => (l, lv)) := by
  constructor
  · unfold parse
    rw [splitSep_append _ _ _ h1, splitSep_of_not_mem _ _ h2]
  · unfold parse
    have e : (l ++ '=' :: r ++ '=' :: rest : List Char) = l ++ '=' :: (r ++ '=' :: rest) := by
      simp
    rw [e, splitSep_append _ _ _ h1, splitSep_append _ _ _ h2]

theorem parse_splits_on_equals_witness :
    parse ("foo=debug".toList) = some ("foo".toList, LevelFilter.Debug)
    ∧ parse ("foo=debug=trace".toList) = some ("foo".toList, LevelFilter.Debug) :=
  ⟨((parse_splits_on_equals ("foo".toList) ("debug".toList) ("trace".toList)
      (by decide) (by decide)).1).trans (by decide),
   ((parse_splits_on_equals ("foo".toList) ("debug".toList) ("trace".toList)
      (by decide) (by decide)).2).trans (by decide)⟩

/-- C9: a token `=<level>` whose right side names a severity level yields a
rule with empty module path; `from_str` stores it, and `find_module` at the empty string on
the result returns that level — not the global minimum or absence (the
`=debug,trace` instance has minimum `Trace` yet resolves `""` to `Debug`). -/
theorem empty_module_rule (s : List Char) (lv : LevelFilter)
    (h : parseLevelName s = some lv) :
    parse ('=' :: s) = some ([], lv)
    ∧ (Filters.from_str ('=' :: s)).find_module [] = some lv
    ∧ (Filters.from_str ("=debug,trace".toList)).find_module [] = some LevelFilter.Debug
    ∧ (Filters.from_str ("=debug,trace".toList)).minimum = some LevelFilter.Trace := by
  obtain ⟨hne, hnc⟩ := parseLevelName_no_special s lv h
  have hp : parse ('=' :: s) = some ([], lv) :=
    (parse_missing_side_skipped [] s lv (by simp) h).2
  refine ⟨hp, ?_, by decide, by decide⟩
  have htok : splitSep ',' ('=' :: s) = [('=' :: s)] := by
    refine splitSep_of_not_mem _ _ ?_
    intro hm
    rcases List.mem_cons.mp hm with he | hm
    · exact absurd he (by decide)
    · exact hnc hm
  have hrules : (splitSep ',' ('=' :: s)).filterMap parse = [([], lv)] := by
    rw [htok]
    simp [hp]
  have hfil : (splitSep ',' ('=' :: s)).filter (fun t => !(t.contains '=')) = [] := by
    rw [htok]
    simp [List.contains_cons]
  have hfs : Filters.from_str ('=' :: s) = ⟨FiltersKind.List [([], lv)], none⟩ := by
    rw [from_str_eq, hrules, hfil]
    rfl
  rw [hfs]
  rfl

theorem empty_module_rule_witness :
    parse ("=debug".toList) = some ([], LevelFilter.Debug)
    ∧ (Filters.from_str ("=debug".toList)).find_module [] = some LevelFilter.Debug
    ∧ (Filters.from_str ("=debug,trace".toList)).find_module [] = some LevelFilter.Debug
    ∧ (Filters.from_str ("=debug,trace".toList)).minimum = some LevelFilter.Trace :=
  empty_module_rule ("debug".toList) LevelFilter.Debug (by decide)

/-- C5: the global minimum is the maximum (most verbose) severity among the
comma-separated tokens without `=` that parse as a level name other than
`Off`, absent when no such token exists; `"debug,off"` yields `Debug`. -/
theorem minimum_is_max_of_bare_levels (input : List Char) :
    ((Filters.from_str input).minimum = none ↔
      ((((splitSep ',' input).filter (fun s => !(s.contains '='))).filterMap
          parseLevelName).filter (fun l => decide (l ≠ LevelFilter.Off))) = [])
    ∧ (∀ lv, (Filters.from_str input).minimum = some lv ↔
        (lv ∈ (((splitSep ',' input).filter (fun s => !(s.contains '='))).filterMap
            parseLevelName).filter (fun l => decide (l ≠ LevelFilter.Off))
          ∧ ∀ x ∈ (((splitSep ',' input).filter (fun s => !(s.contains '='))).filterMap
              parseLevelName).filter (fun l => decide (l ≠ LevelFilter.Off)),
            x.toNat ≤ lv.toNat))
    ∧ (Filters.from_str ("debug,off".toList)).minimum = some LevelFilter.Debug := by
  have hmin : (Filters.from_str input).minimum =
      maxLevel ((((splitSep ',' input).filter (fun s => !(s.contains '='))).filterMap
        parseLevelName).filter (fun l => decide (l ≠ LevelFilter.Off))) := rfl
  refine ⟨?_, ?_, by decide⟩
  · rw [hmin]
    exact maxLevel_eq_none _
  · intro lv
    rw [hmin]
    constructor
    · exact maxLevel_mem _ lv
    · rintro ⟨hm, hub⟩
      exact maxLevel_eq_of _ lv hm hub

theorem minimum_is_max_of_bare_levels_witness :
    (Filters.from_str ("debug,off".toList)).minimum = some LevelFilter.Debug :=
  (minimum_is_max_of_bare_levels ("debug,off".toList)).2.2

/-- C6: the tag `kind` is `Default` iff no rules parsed and minimum absent; `Blanket`
iff no rules and minimum present; `List` (holding the parsed rules, in input
order) iff between 1 and 14 rules; `Map` iff 15 or more rules. -/
theorem kind_selection (input : List Char) :
    ((Filters.from_str input).kind = FiltersKind.Default ↔
      ((splitSep ',' input).filterMap parse = []
        ∧ (Filters.from_str input).minimum = none))
    ∧ ((Filters.from_str input).kind = FiltersKind.Blanket ↔
      ((splitSep ',' input).filterMap parse = []
        ∧ (Filters.from_str input).minimum ≠ none))
    ∧ ((Filters.from_str input).kind =
        FiltersKind.List ((splitSep ',' input).filterMap parse) ↔
      (1 ≤ ((splitSep ',' input).filterMap parse).length
        ∧ ((splitSep ',' input).filterMap parse).length ≤ 14))
    ∧ ((∃ ms, (Filters.from_str input).kind = FiltersKind.Map ms) ↔
      15 ≤ ((splitSep ',' input).filterMap parse).length) := by
  have hm : (Filters.from_str input).minimum =
      maxLevel ((((splitSep ',' input).filter (fun s => !(s.contains '='))).filterMap
        parseLevelName).filter (fun l => decide (l ≠ LevelFilter.Off))) := rfl
  have hk : (Filters.from_str input).kind =
      (if ((splitSep ',' input).filterMap parse).length = 0 then
        if maxLevel ((((splitSep ',' input).filter (fun s => !(s.contains '='))).filterMap
              parseLevelName).filter (fun l => decide (l ≠ LevelFilter.Off))) = none then
          FiltersKind.Default
        else FiltersKind.Blanket
      else if ((splitSep ',' input).filterMap parse).length < 15 then
        FiltersKind.List ((splitSep ',' input).filterMap parse)
      else FiltersKind.Map (hashCollect ((splitSep ',' input).filterMap parse))) := rfl
  rw [hk, hm]
  generalize (splitSep ',' input).filterMap parse = R
  generalize maxLevel ((((splitSep ',' input).filter
      (fun s => !(s.contains '='))).filterMap parseLevelName).filter
    (fun l => decide (l ≠ LevelFilter.Off))) = Q
  by_cases h0 : R.length = 0
  · have hrules : R = [] := List.length_eq_zero.mp h0
    subst hrules
    by_cases hmn : Q = none
    · subst hmn
      simp
    · simp [hmn]
  · have h1 : ¬(R = []) := fun e => h0 (by simp [e])
    by_cases h15 : R.length < 15
    · refine ⟨by simp [h0, h15, h1], by simp [h0, h15, h1], ?_, ?_⟩
      · simp only [h0, h15, if_false, if_true, if_neg, if_pos]
        simp
        omega
      · simp only [h0, h15, if_false, if_true, if_neg, if_pos]
        simp
        omega
    · refine ⟨by simp [h0, h15, h1], by simp [h0, h15, h1], ?_, ?_⟩
      · simp only [h0, h15, if_false, if_true, if_neg, if_pos]
        simp
        omega
      · simp only [h0, h15, if_false, if_true, if_neg, if_pos]
        simp
        omega

theorem kind_selection_witness :
    (Filters.from_str ("".toList)).kind = FiltersKind.Default :=
  (kind_selection ("".toList)).1.mpr ⟨by decide, by decide⟩

/-- C7: for rules with pairwise-distinct module paths and any minimum, the
`List` representation and the `Map` representation (built by the keyed fold)
agree on `find_module` for every query. -/
theorem list_map_representation_equiv (rs : List Rule) (mn : Option LevelFilter)
    (h : (rs.map Prod.fst).Nodup) (m : List Char) :
    (Filters.mk (FiltersKind.List rs) mn).find_module m =
      (Filters.mk (FiltersKind.Map (hashCollect rs)) mn).find_module m := by
  have hc : hashCollect rs = rs := hashCollect_of_nodup rs h
  have hfe : ∀ x, (Filters.mk (FiltersKind.List rs) mn).find_exact x =
      (Filters.mk (FiltersKind.Map (hashCollect rs)) mn).find_exact x := by
    intro x
    show lookupLevel rs x = lookupLevel (hashCollect rs) x
    rw [hc]
  rw [find_module_List, find_module_Map, hfe m,
    scanLoop_congr _ _ m hfe m.enum.reverse false]

theorem list_map_representation_equiv_witness :
    (Filters.mk (FiltersKind.List [("a".toList, LevelFilter.Info),
        ("b".toList, LevelFilter.Error)]) (some LevelFilter.Warn)).find_module
      "a::x".toList =
    (Filters.mk (FiltersKind.Map (hashCollect [("a".toList, LevelFilter.Info),
        ("b".toList, LevelFilter.Error)])) (some LevelFilter.Warn)).find_module
      "a::x".toList :=
  list_map_representation_equiv _ _ (by decide) _

/-- C8: with duplicate module keys, the `List` representation resolves an
exact lookup to the level of the first occurrence, while the `Map` representation
(keyed fold) resolves it to the level of the last-inserted occurrence. -/
theorem duplicate_keys_first_vs_last (pre mid post : List Rule) (p : List Char)
    (a b : LevelFilter) (mn : Option LevelFilter)
    (h1 : ∀ q ∈ pre, q.1 ≠ p) (h2 : ∀ q ∈ post, q.1 ≠ p) :
    (Filters.mk (FiltersKind.List (pre ++ (p, a) :: mid ++ (p, b) :: post)) mn).find_exact
        p = some a
    ∧ (Filters.mk (FiltersKind.Map
          (hashCollect (pre ++ (p, a) :: mid ++ (p, b) :: post))) mn).find_exact
        p = some b := by
  constructor
  · show lookupLevel (pre ++ (p, a) :: mid ++ (p, b) :: post) p = some a
    rw [lookupLevel_append, lookupLevel_append, lookupLevel_eq_none pre p h1]
    simp [lookupLevel]
  · show lookupLevel (hashCollect (pre ++ (p, a) :: mid ++ (p, b) :: post)) p = some b
    rw [lookupLevel_hashCollect]
    rw [List.foldl_append, List.foldl_cons, List.foldl_append, List.foldl_cons]
    simp [foldl_lastVal_clean p post h2]

theorem duplicate_keys_first_vs_last_witness :
    (Filters.mk (FiltersKind.List [("foo".toList, LevelFilter.Info),
        ("foo".toList, LevelFilter.Error)]) none).find_exact ("foo".toList) =
      some LevelFilter.Info
    ∧ (Filters.mk (FiltersKind.Map (hashCollect [("foo".toList, LevelFilter.Info),
        ("foo".toList, LevelFilter.Error)])) none).find_exact ("foo".toList) =
      some LevelFilter.Error :=
  duplicate_keys_first_vs_last [] [] [] "foo".toList LevelFilter.Info LevelFilter.Error
    none (by simp) (by simp)

end LogFilterParse
